import Mathlib

/-!
Verification development for the Tower of Hanoi game-state hook
(`src/src/hooks/useTowerOfHanoi.ts`).  The hook's state and operations are
shallowly embedded below: React `useState`/`useRef` cells become fields of
`GameState`, and each callback of the hook becomes a pure function on
`GameState`.  The two nested animation timeouts of a move are collapsed in
the sequential embedding (`placeDisk`, `executeAutoSolveStep`): the returned
state is the state after both scheduled phases have fired without
interruption.  A separate small machine (`Machine`, `execSyncM`, `fireM`,
`stopM`) keeps the timers explicit for the cancellation claims.
-/

/-- Peg identity, from `type Peg = 'A' | 'B' | 'C'` in the types module. -/
inductive Peg : Type
  | A
  | B
  | C
deriving DecidableEq, Repr

/-- The three disk stacks, ordered bottom-to-top, from the hook's
`pegs` state `{ A: number[]; B: number[]; C: number[] }`. -/
structure Pegs : Type where
  A : List Nat
  B : List Nat
  C : List Nat
deriving DecidableEq, Repr

/-- Dynamic indexing `pegs[peg]` of the source. -/
def Pegs.get (p : Pegs) : Peg → List Nat
  | .A => p.A
  | .B => p.B
  | .C => p.C

/-- Dynamic update `pegs[peg] = l` of the source. -/
def Pegs.set (p : Pegs) : Peg → List Nat → Pegs
  | .A, l => { p with A := l }
  | .B, l => { p with B := l }
  | .C, l => { p with C := l }

/-- Multiset of all disks on the board (used to state the conservation
invariant; the source has no such function). -/
def Pegs.disks (p : Pegs) : Multiset Nat := ↑p.A + ↑p.B + ↑p.C

/-- One step of a fetched solution, from `interface Step` in the types
module (`from`/`to` are Lean keywords hence `fromPeg`/`toPeg`). -/
structure Step : Type where
  stepNumber : Nat
  fromPeg : Peg
  toPeg : Peg
  disk : Nat
deriving DecidableEq, Repr

/-- A fetched solution, from `interface SolutionResponse`. -/
structure SolutionResponse : Type where
  steps : List Step
  totalSteps : Nat
deriving DecidableEq, Repr

/-- The hook's state cells.  `currentStepRef`/`pegsRef`/`isAutoSolvingRef`
mirror the `useState` values in the sequential embedding, so a single field
stands for each pair. -/
structure GameState : Type where
  pegs : Pegs
  selectedDisk : Option Nat
  selectedPeg : Option Peg
  targetPeg : Option Peg
  currentStep : Nat
  completedSteps : Finset Nat
  isAutoSolving : Bool
  isSolved : Bool
deriving DecidableEq

/-- Translation of `reset` (useTowerOfHanoi.ts lines 47-79).  Pegs are only
filled for `disks <= 10` (the gameboard is only rendered then); larger
counts clear all pegs.  `Array.from({length: disks}, (_, i) => disks - i)`
is `(List.range disks).map (fun i => disks - i)`. -/
def reset (disks : Nat) : GameState :=
  let newPegs : Pegs :=
    if disks ≤ 10 then
      { A := (List.range disks).map (fun i => disks - i), B := [], C := [] }
    else
      { A := [], B := [], C := [] }
  { pegs := newPegs
    selectedDisk := none
    selectedPeg := none
    targetPeg := none
    currentStep := 1
    completedSteps := ∅
    isAutoSolving := false
    isSolved := false }

/-- Translation of `selectDisk` (lines 81-106).  The top disk is the last
array element `pegDisks[pegDisks.length - 1]`, i.e. `getLast?` of the
stack, which is `some` on the guarded non-empty path. -/
def selectDisk (s : GameState) (peg : Peg) : GameState :=
  if s.isAutoSolving then s
  else
    let pegDisks := s.pegs.get peg
    if pegDisks = [] then
      { s with selectedDisk := none, selectedPeg := none }
    else if s.selectedPeg = some peg then
      { s with selectedDisk := none, selectedPeg := none }
    else
      { s with selectedDisk := pegDisks.getLast?, selectedPeg := some peg }

/-- Commit phase of `placeDisk` (lines 144-198): the two nested timeouts,
run back to back.  Phase 2 pops the source peg (`slice(0, -1)`, i.e.
`dropLast`) and pushes the captured selected disk onto the target; phase 3
clears the selection and, when a solution is loaded and the committed move
equals the expected step at the captured step number, records the step and
advances `currentStep`, marking `isSolved` when the new step number passes
the end of the solution. -/
def commitPlace (sol : Option SolutionResponse) (s : GameState)
    (originalSelectedPeg : Peg) (originalSelectedDisk : Nat) (peg : Peg) :
    GameState :=
  let currentStepNum := s.currentStep
  let currentSourcePegDisks := s.pegs.get originalSelectedPeg
  let currentTargetPegDisks := s.pegs.get peg
  let newPegs :=
    (s.pegs.set originalSelectedPeg currentSourcePegDisks.dropLast).set peg
      (currentTargetPegDisks ++ [originalSelectedDisk])
  let s1 := { s with pegs := newPegs, selectedDisk := none,
                     selectedPeg := none, targetPeg := none }
  match sol with
  | none => s1
  | some solution =>
    match solution.steps.find? (fun st => st.stepNumber == currentStepNum) with
    | none => s1
    | some expectedStep =>
      if expectedStep.fromPeg = originalSelectedPeg ∧ expectedStep.toPeg = peg ∧
          expectedStep.disk = originalSelectedDisk then
        let nextStep := currentStepNum + 1
        { s1 with completedSteps := insert currentStepNum s1.completedSteps
                  currentStep := nextStep
                  isSolved := if nextStep > solution.steps.length then true
                              else s1.isSolved }
      else s1

/-- Translation of `placeDisk` (lines 108-201).  Returns the boolean the
source returns together with the state after the (uninterrupted) commit.
The guard order follows the source: auto-solve / missing selection, then
same-peg, then the larger-on-smaller validation against the target's top
disk. -/
def placeDisk (sol : Option SolutionResponse) (s : GameState) (peg : Peg) :
    Bool × GameState :=
  match s.selectedDisk, s.selectedPeg with
  | some selDisk, some selPeg =>
    if s.isAutoSolving then (false, s)
    else if selPeg = peg then
      (false, { s with selectedDisk := none, selectedPeg := none,
                       targetPeg := none })
    else
      let targetPegDisks := s.pegs.get peg
      match targetPegDisks.getLast? with
      | some topDiskOnTarget =>
        if selDisk > topDiskOnTarget then
          (false, { s with selectedDisk := none, selectedPeg := none,
                           targetPeg := none })
        else (true, commitPlace sol s selPeg selDisk peg)
      | none => (true, commitPlace sol s selPeg selDisk peg)
  | _, _ => (false, s)

/-- Result of one sequential run of `executeAutoSolveStep`:
the state after both animation phases have fired without interruption, the
number of `onComplete` invocations (the ref is set by `startAutoSolve`, so
the guarded call is counted), and whether a next step was scheduled. -/
structure AutoStepOut : Type where
  state : GameState
  onCompleteCalls : Nat
  scheduledNext : Bool
deriving DecidableEq

/-- Translation of `executeAutoSolveStep` (lines 212-291), sequential: the
two nested timeouts run back to back.  `diskToMove` is read by index from
the source peg before popping; the JS value on an empty peg would be
`undefined` (never the case on a well-formed run), modelled by the
sentinel `0`, a size no real disk has.  The driver performs no validation
of the step against the board: it pops whatever is on the source peg and
pushes the captured disk onto the target, then records the step and
advances unconditionally. -/
def executeAutoSolveStep (sol : Option SolutionResponse) (s : GameState) :
    AutoStepOut :=
  match sol with
  | none => ⟨s, 0, false⟩
  | some solution =>
    if s.isAutoSolving = false then ⟨s, 0, false⟩
    else
      match solution.steps.find? (fun st => st.stepNumber == s.currentStep) with
      | none => ⟨{ s with isAutoSolving := false }, 1, false⟩
      | some step =>
        let sourcePegDisks := s.pegs.get step.fromPeg
        let diskToMove := sourcePegDisks.getLast?.getD 0
        let updatedPegs :=
          (s.pegs.set step.fromPeg sourcePegDisks.dropLast).set step.toPeg
            ((s.pegs.get step.toPeg) ++ [diskToMove])
        let stepToComplete := s.currentStep
        let nextStep := s.currentStep + 1
        let s1 := { s with pegs := updatedPegs
                           selectedDisk := none
                           selectedPeg := none
                           targetPeg := none
                           completedSteps := insert stepToComplete s.completedSteps
                           currentStep := nextStep }
        if nextStep > solution.steps.length then
          ⟨{ s1 with isAutoSolving := false, isSolved := true }, 1, false⟩
        else ⟨s1, 0, true⟩

/-- The auto-solve loop: `executeAutoSolveStep` re-invoked through the
inter-step timeout (line 286-288) for as long as a next step is scheduled.
Fuel bounds the recursion; every theorem supplies enough fuel for the run
to end on its own.  Returns the final state and the total number of
`onComplete` invocations. -/
def runAutoSolve (sol : Option SolutionResponse) :
    Nat → GameState → Nat → GameState × Nat
  | 0, s, calls => (s, calls)
  | fuel + 1, s, calls =>
    let out := executeAutoSolveStep sol s
    if out.scheduledNext then
      runAutoSolve sol fuel out.state (calls + out.onCompleteCalls)
    else (out.state, calls + out.onCompleteCalls)

/-- Synchronous part of `startAutoSolve` (lines 297-314): stores the
solution and callback, raises the auto-solving flag, and resets the
progress only when the current step is already past the end of the
solution.  The trailing `executeAutoSolveStep()` call is modelled
separately (`runAutoSolve`, `execSyncM`). -/
def startAutoSolve (sol : SolutionResponse) (s : GameState) : GameState :=
  let s1 := { s with isAutoSolving := true }
  if s1.currentStep > sol.steps.length then
    { s1 with currentStep := 1, completedSteps := ∅ }
  else s1

/-- Translation of `stopAutoSolve` (lines 203-210), state flags only; the
timer handle it clears lives in the `Machine` model below (`stopM`). -/
def stopAutoSolve (s : GameState) : GameState :=
  { s with isAutoSolving := false }

/-- Timer callbacks an auto-solve step can leave pending.  `phase1` (line
239) and `phase2` (line 258) are raw `setTimeout`s whose handles are never
stored; only the inter-step timeout (line 286) is stored in
`autoSolveTimeoutRef`.  The `phase1` closure captured `step` and
`diskToMove`; the `phase2` closure captured `step`. -/
inductive PendingTimer : Type
  | phase1 (step : Step) (diskToMove : Nat)
  | phase2 (step : Step)
  | interStep
deriving DecidableEq

/-- Event-loop view of the hook during auto-solve: the game state plus the
single outstanding timer of the phase chain (the source never has two
pending at once on this path) and the `onComplete` call count. -/
structure Machine : Type where
  game : GameState
  pending : Option PendingTimer
  onCompleteCalls : Nat
deriving DecidableEq

/-- Synchronous prefix of `executeAutoSolveStep` (lines 212-237): guard,
step lookup, selection of the moving disk, and scheduling of the phase-1
timeout.  No board mutation happens here. -/
def execSyncM (sol : SolutionResponse) (m : Machine) : Machine :=
  if m.game.isAutoSolving = false then m
  else
    match sol.steps.find? (fun st => st.stepNumber == m.game.currentStep) with
    | none =>
      { m with game := { m.game with isAutoSolving := false }
               onCompleteCalls := m.onCompleteCalls + 1 }
    | some step =>
      let diskToMove := (m.game.pegs.get step.fromPeg).getLast?.getD 0
      { m with game := { m.game with
                           selectedDisk := some diskToMove
                           selectedPeg := some step.fromPeg
                           targetPeg := some step.toPeg }
               pending := some (.phase1 step diskToMove) }

/-- Firing of the pending timer.  `phase1` (lines 239-256) commits the
board mutation and schedules `phase2`; `phase2` (lines 258-289) clears the
selection, records the step, and either ends the run or schedules the
inter-step timeout; the inter-step timeout re-enters
`executeAutoSolveStep`.  None of the three callbacks re-checks the
auto-solving flag before mutating, except the re-entered synchronous
prefix. -/
def fireM (sol : SolutionResponse) (m : Machine) : Machine :=
  match m.pending with
  | none => m
  | some (.phase1 step diskToMove) =>
    let g := m.game
    let updatedPegs :=
      (g.pegs.set step.fromPeg (g.pegs.get step.fromPeg).dropLast).set step.toPeg
        ((g.pegs.get step.toPeg) ++ [diskToMove])
    { m with game := { g with pegs := updatedPegs, selectedPeg := some step.toPeg }
             pending := some (.phase2 step) }
  | some (.phase2 _) =>
    let g := m.game
    let stepToComplete := g.currentStep
    let nextStep := g.currentStep + 1
    let g1 := { g with selectedDisk := none
                       selectedPeg := none
                       targetPeg := none
                       completedSteps := insert stepToComplete g.completedSteps
                       currentStep := nextStep }
    if nextStep > sol.steps.length then
      { m with game := { g1 with isAutoSolving := false, isSolved := true }
               pending := none
               onCompleteCalls := m.onCompleteCalls + 1 }
    else { m with game := g1, pending := some .interStep }
  | some .interStep => execSyncM sol { m with pending := none }

/-- Translation of `stopAutoSolve` on the machine view: the auto-solving
flag drops synchronously, and `clearTimeout` cancels only the handle held
in `autoSolveTimeoutRef`, which is ever only the inter-step timeout; a
pending phase-1 or phase-2 timeout keeps its slot in the event loop. -/
def stopM (m : Machine) : Machine :=
  let g := { m.game with isAutoSolving := false }
  match m.pending with
  | some .interStep => { m with game := g, pending := none }
  | _ => { m with game := g }

/-- Sequence ordering invariant stated by the spec: disk sizes strictly
decrease from bottom (index 0) to top (last element). -/
def ordered (l : List Nat) : Prop := l.Pairwise (fun a b => b < a)

/-- Selection consistency: a selected disk is the top disk of the selected
peg.  `selectDisk` establishes it; every other operation clears or keeps
the selection. -/
def SelOk (s : GameState) : Prop :=
  ∀ d pg, s.selectedDisk = some d → s.selectedPeg = some pg →
    (s.pegs.get pg).getLast? = some d

/-- Invariant carried through the reachability induction: disk
conservation, distinct sizes, per-peg ordering, selection consistency. -/
structure StateInv (D : Multiset Nat) (s : GameState) : Prop where
  disks_eq : s.pegs.disks = D
  nodup : D.Nodup
  ord : ∀ pg, ordered (s.pegs.get pg)
  selOk : SelOk s

/-- Legality of the auto-solve step about to be committed: the recorded
move is between distinct pegs, its source is non-empty, and its source's
top disk fits on the target's top disk.  The Driver itself never checks
this (the point of the desynchronization claim); it is the side condition
under which a step commit preserves the board invariants. -/
def LegalAutoStep (sol : SolutionResponse) (s : GameState) : Prop :=
  ∀ step, sol.steps.find? (fun st => st.stepNumber == s.currentStep) = some step →
    step.fromPeg ≠ step.toPeg ∧ s.pegs.get step.fromPeg ≠ [] ∧
    ∀ t ∈ (s.pegs.get step.toPeg).getLast?,
      ∀ dd ∈ (s.pegs.get step.fromPeg).getLast?, dd < t

/-- States reachable through the hook's operations, with every auto-solve
step commit restricted to legal steps. -/
inductive ReachableLegal (N : Nat) : GameState → Prop
  | rst : ReachableLegal N (reset N)
  | sel (s : GameState) (peg : Peg) (h : ReachableLegal N s) :
      ReachableLegal N (selectDisk s peg)
  | place (s : GameState) (sol : Option SolutionResponse) (peg : Peg)
      (h : ReachableLegal N s) : ReachableLegal N (placeDisk sol s peg).2
  | start (s : GameState) (sol : SolutionResponse) (h : ReachableLegal N s) :
      ReachableLegal N (startAutoSolve sol s)
  | stop (s : GameState) (h : ReachableLegal N s) :
      ReachableLegal N (stopAutoSolve s)
  | auto (s : GameState) (sol : SolutionResponse) (h : ReachableLegal N s)
      (hl : LegalAutoStep sol s) :
      ReachableLegal N (executeAutoSolveStep (some sol) s).state

/-- Solution step numbers are 1-based and contiguous, as the spec's data
model states for `Solution`. -/
def Contiguous (sol : SolutionResponse) : Prop :=
  ∀ i (h : i < sol.steps.length), (sol.steps.get ⟨i, h⟩).stepNumber = i + 1

/-- Physical performability of one manual move: distinct pegs, the step's
disk actually on top of its source peg, and fitting on the target's top. -/
def MovePerformable (s : GameState) (st : Step) : Prop :=
  st.fromPeg ≠ st.toPeg ∧
  (s.pegs.get st.fromPeg).getLast? = some st.disk ∧
  (s.pegs.get st.toPeg).getLast?.all (fun t => st.disk ≤ t) = true

instance (s : GameState) (st : Step) : Decidable (MovePerformable s st) := by
  unfold MovePerformable
  infer_instance

/-- Manual replay of a list of moves: each move is a `selectDisk` on the
step's source peg followed by `placeDisk` on its target peg. -/
def playMoves (sol : SolutionResponse) : List Step → GameState → GameState
  | [], s => s
  | st :: rest, s =>
    playMoves sol rest (placeDisk (some sol) (selectDisk s st.fromPeg) st.toPeg).2

/-- Every move of the list is performable at its turn during the replay. -/
def playable (sol : SolutionResponse) : List Step → GameState → Bool
  | [], _ => true
  | st :: rest, s =>
    decide (MovePerformable s st) &&
      playable sol rest (placeDisk (some sol) (selectDisk s st.fromPeg) st.toPeg).2

/-- Canonical 3-step solution for two disks, used as concrete input. -/
def sol2 : SolutionResponse :=
  ⟨[⟨1, .A, .B, 1⟩, ⟨2, .A, .C, 2⟩, ⟨3, .B, .C, 1⟩], 3⟩

/-- Machine immediately after `startAutoSolve` on a fresh 2-disk board,
before any timer has been scheduled. -/
def m0 : Machine := ⟨startAutoSolve sol2 (reset 2), none, 0⟩

/-- Machine during the 300ms phase-1 window of auto-solve step 1: the
phase-1 timeout is pending and `autoSolveTimeoutRef` is empty. -/
def m1 : Machine := execSyncM sol2 m0

/-- Machine right after `stopAutoSolve` is called mid-flight. -/
def mStop : Machine := stopM m1

/-- Machine after all remaining scheduled callbacks have fired following
the mid-flight stop. -/
def mEnd : Machine := fireM sol2 (fireM sol2 (fireM sol2 mStop))

/-- Malformed loaded solution that directs disk 2 onto disk 1; the Driver
commits it anyway. -/
def badSol : SolutionResponse := ⟨[⟨1, .A, .C, 1⟩, ⟨2, .A, .C, 2⟩], 2⟩

/-- State after auto-solving both steps of `badSol` from a fresh 2-disk
board. -/
def badRun : AutoStepOut :=
  executeAutoSolveStep (some badSol)
    (executeAutoSolveStep (some badSol) (startAutoSolve badSol (reset 2))).state

/-- Solution whose first step expects disk 2 while disk 1 is on top of the
recorded source peg: a desynchronization input. -/
def sol5 : SolutionResponse := ⟨[⟨1, .A, .C, 2⟩, ⟨2, .A, .B, 2⟩], 2⟩

/-- Fresh 2-disk auto-solve start on the desynchronized solution. -/
def s5 : GameState := startAutoSolve sol5 (reset 2)

/-- Result of the Driver's first step on the desynchronized solution. -/
def out5 : AutoStepOut := executeAutoSolveStep (some sol5) s5

/-- The N=2 invalid-move scenario state: disk 1 was moved to peg B, then
disk 2 selected from peg A. -/
def n2state : GameState :=
  selectDisk (placeDisk none (selectDisk (reset 2) .A) .B).2 .A

instance (l : List Nat) : Decidable (ordered l) := by
  unfold ordered
  infer_instance

instance (sol : SolutionResponse) : Decidable (Contiguous sol) := by
  unfold Contiguous
  infer_instance

theorem reset_pegs_A_eq (N : Nat) (h : N ≤ 10) :
    (reset N).pegs.A = (List.range' 1 N).reverse := by
  simp only [reset, h, if_pos]
  rw [List.reverse_range']
  apply List.map_congr_left
  intro i hi
  omega

theorem Pegs.get_set (p : Pegs) (a b : Peg) (l : List Nat) :
    (p.set a l).get b = if a = b then l else p.get b := by
  cases a <;> cases b <;> simp [Pegs.set, Pegs.get]

theorem Pegs.mem_disks {p : Pegs} {x : Nat} {a : Peg} (h : x ∈ p.get a) :
    x ∈ p.disks := by
  cases a <;> simp [Pegs.get] at h <;> simp [Pegs.disks, h]

theorem Pegs.disjoint_get {p : Pegs} (hnd : p.disks.Nodup) {a b : Peg} (hab : a ≠ b)
    {x : Nat} (hxa : x ∈ p.get a) (hxb : x ∈ p.get b) : False := by
  unfold Pegs.disks at hnd
  rw [Multiset.nodup_add] at hnd
  obtain ⟨h1, -, h3⟩ := hnd
  rw [Multiset.nodup_add] at h1
  obtain ⟨-, -, hAB⟩ := h1
  rw [Multiset.disjoint_left] at h3 hAB
  cases a <;> cases b <;> simp [Pegs.get] at hxa hxb <;> first
    | exact hab rfl
    | exact hAB (Multiset.mem_coe.mpr hxa) (Multiset.mem_coe.mpr hxb)
    | exact hAB (Multiset.mem_coe.mpr hxb) (Multiset.mem_coe.mpr hxa)
    | exact h3 (Multiset.mem_add.mpr (Or.inl (Multiset.mem_coe.mpr hxa))) (Multiset.mem_coe.mpr hxb)
    | exact h3 (Multiset.mem_add.mpr (Or.inr (Multiset.mem_coe.mpr hxa))) (Multiset.mem_coe.mpr hxb)
    | exact h3 (Multiset.mem_add.mpr (Or.inl (Multiset.mem_coe.mpr hxb))) (Multiset.mem_coe.mpr hxa)
    | exact h3 (Multiset.mem_add.mpr (Or.inr (Multiset.mem_coe.mpr hxb))) (Multiset.mem_coe.mpr hxa)

theorem coe_split {l : List Nat} {d : Nat} (hd : l.getLast? = some d) :
    (↑l : Multiset Nat) = ↑l.dropLast + ↑([d] : List Nat) := by
  conv_lhs => rw [← List.dropLast_append_getLast? d hd]
  rw [← Multiset.coe_add]

theorem Pegs.disks_move (p : Pegs) (a b : Peg) (d : Nat)
    (hab : a ≠ b) (hd : (p.get a).getLast? = some d) :
    ((p.set a (p.get a).dropLast).set b ((p.get b) ++ [d])).disks = p.disks := by
  cases a <;> cases b <;> simp only [Pegs.get] at hd <;>
    first
    | exact absurd rfl hab
    | (simp only [Pegs.set, Pegs.get, Pegs.disks]
       rw [coe_split hd]
       simp only [← Multiset.coe_add]
       abel)

theorem ordered_dropLast {l : List Nat} (h : ordered l) : ordered l.dropLast :=
  List.Pairwise.sublist (List.dropLast_sublist l) h

theorem ordered_getLast_le {l : List Nat} (h : ordered l) {t : Nat}
    (ht : l.getLast? = some t) : ∀ x ∈ l, t ≤ x := by
  induction l with
  | nil => simp at ht
  | cons a l ih =>
    cases l with
    | nil =>
      simp at ht
      intro x hx
      simp at hx
      omega
    | cons b m =>
      rw [List.getLast?_cons_cons] at ht
      intro x hx
      rcases List.mem_cons.mp hx with rfl | hx'
      · have htmem : t ∈ b :: m := List.mem_of_mem_getLast? ht
        have hlt := (List.pairwise_cons.mp h).1 t htmem
        omega
      · exact ih (List.pairwise_cons.mp h).2 ht x hx'

theorem ordered_append_top {l : List Nat} {d : Nat} (h : ordered l)
    (hd : ∀ t ∈ l.getLast?, d < t) : ordered (l ++ [d]) := by
  rw [ordered, List.pairwise_append]
  refine ⟨h, List.pairwise_singleton _ _, ?_⟩
  intro x hx y hy
  simp at hy
  subst hy
  cases hl : l.getLast? with
  | none =>
    rw [List.getLast?_eq_none_iff] at hl
    subst hl
    simp at hx
  | some t =>
    have := ordered_getLast_le h hl x hx
    have := hd t (by simp [hl])
    omega

theorem commitPlace_base (sol : Option SolutionResponse) (s : GameState)
    (a : Peg) (d : Nat) (b : Peg) :
    (commitPlace sol s a d b).pegs =
      (s.pegs.set a (s.pegs.get a).dropLast).set b ((s.pegs.get b) ++ [d]) ∧
    (commitPlace sol s a d b).selectedDisk = none ∧
    (commitPlace sol s a d b).selectedPeg = none ∧
    (commitPlace sol s a d b).targetPeg = none ∧
    (commitPlace sol s a d b).isAutoSolving = s.isAutoSolving := by
  simp only [commitPlace]
  refine ⟨?_, ?_, ?_, ?_, ?_⟩ <;> (repeat' split) <;> rfl

theorem commitPlace_progress_match (solution : SolutionResponse) (s : GameState)
    (a : Peg) (d : Nat) (b : Peg) (est : Step)
    (hf : solution.steps.find? (fun st => st.stepNumber == s.currentStep) = some est)
    (hm : est.fromPeg = a ∧ est.toPeg = b ∧ est.disk = d) :
    (commitPlace (some solution) s a d b).completedSteps =
      insert s.currentStep s.completedSteps ∧
    (commitPlace (some solution) s a d b).currentStep = s.currentStep + 1 ∧
    (commitPlace (some solution) s a d b).isSolved =
      (if s.currentStep + 1 > solution.steps.length then true else s.isSolved) := by
  simp only [commitPlace, hf]
  rw [if_pos hm]
  exact ⟨rfl, rfl, rfl⟩

theorem commitPlace_progress_mismatch (solution : SolutionResponse) (s : GameState)
    (a : Peg) (d : Nat) (b : Peg) (est : Step)
    (hf : solution.steps.find? (fun st => st.stepNumber == s.currentStep) = some est)
    (hm : ¬ (est.fromPeg = a ∧ est.toPeg = b ∧ est.disk = d)) :
    (commitPlace (some solution) s a d b).completedSteps = s.completedSteps ∧
    (commitPlace (some solution) s a d b).currentStep = s.currentStep ∧
    (commitPlace (some solution) s a d b).isSolved = s.isSolved := by
  simp only [commitPlace, hf]
  rw [if_neg hm]
  exact ⟨rfl, rfl, rfl⟩

theorem placeDisk_success (sol : Option SolutionResponse) (s : GameState)
    (d : Nat) (pg peg : Peg)
    (hd : s.selectedDisk = some d) (hp : s.selectedPeg = some pg)
    (ha : s.isAutoSolving = false) (hne : pg ≠ peg)
    (hfit : (s.pegs.get peg).getLast?.all (fun t => d ≤ t) = true) :
    placeDisk sol s peg = (true, commitPlace sol s pg d peg) := by
  unfold placeDisk
  rw [hd, hp]
  simp only [ha, Bool.false_eq_true, if_false, hne, reduceIte]
  cases hl : (s.pegs.get peg).getLast? with
  | none => rfl
  | some t =>
    rw [hl] at hfit
    simp only [Option.all_some, decide_eq_true_eq] at hfit
    simp only [show ¬ (d > t) from by omega, if_false, reduceIte]

theorem fit_strict {D : Multiset Nat} {s : GameState} (h : StateInv D s)
    {pg peg : Peg} (hne : pg ≠ peg) {d : Nat}
    (hsrc : (s.pegs.get pg).getLast? = some d) {t : Nat}
    (htgt : (s.pegs.get peg).getLast? = some t) (hle : d ≤ t) : d < t := by
  rcases Nat.lt_or_ge d t with h' | h'
  · exact h'
  · have hdt : d = t := by omega
    subst hdt
    have hnd : s.pegs.disks.Nodup := by rw [h.disks_eq]; exact h.nodup
    exact (Pegs.disjoint_get hnd hne (List.mem_of_mem_getLast? hsrc)
      (List.mem_of_mem_getLast? htgt)).elim

theorem stateInv_commit {D : Multiset Nat} {s : GameState} (h : StateInv D s)
    (sol : Option SolutionResponse) {pg peg : Peg} {d : Nat} (hne : pg ≠ peg)
    (hsrc : (s.pegs.get pg).getLast? = some d)
    (hfit : ∀ t ∈ (s.pegs.get peg).getLast?, d < t) :
    StateInv D (commitPlace sol s pg d peg) := by
  obtain ⟨hpegs, hsd, hsp, -, -⟩ := commitPlace_base sol s pg d peg
  constructor
  · rw [hpegs, Pegs.disks_move _ _ _ _ hne hsrc, h.disks_eq]
  · exact h.nodup
  · intro pg'
    rw [hpegs, Pegs.get_set]
    by_cases h1 : peg = pg'
    · rw [if_pos h1]
      subst h1
      exact ordered_append_top (h.ord peg) hfit
    · rw [if_neg h1, Pegs.get_set]
      by_cases h2 : pg = pg'
      · rw [if_pos h2]
        subst h2
        exact ordered_dropLast (h.ord pg)
      · rw [if_neg h2]
        exact h.ord pg'
  · intro d' pg' hd' hp'
    rw [hsd] at hd'
    cases hd'

theorem stateInv_selectDisk {D : Multiset Nat} {s : GameState}
    (h : StateInv D s) (peg : Peg) : StateInv D (selectDisk s peg) := by
  simp only [selectDisk]
  split
  · exact h
  split
  · exact ⟨h.disks_eq, h.nodup, h.ord, fun d pg hd hp => by simp at hd⟩
  split
  · exact ⟨h.disks_eq, h.nodup, h.ord, fun d pg hd hp => by simp at hd⟩
  · refine ⟨h.disks_eq, h.nodup, h.ord, ?_⟩
    intro d pg hd hp
    simp only at hd hp
    cases hp
    exact hd

theorem StateInv.with_clear {D : Multiset Nat} {s : GameState} (h : StateInv D s)
    (t : Option Peg) (cs : Nat) (cset : Finset Nat) (b1 b2 : Bool) :
    StateInv D { s with selectedDisk := none, selectedPeg := none, targetPeg := t,
                        currentStep := cs, completedSteps := cset,
                        isAutoSolving := b1, isSolved := b2 } :=
  ⟨h.disks_eq, h.nodup, h.ord, fun d pg hd _ => by simp at hd⟩

theorem stateInv_placeDisk {D : Multiset Nat} {s : GameState}
    (h : StateInv D s) (sol : Option SolutionResponse) (peg : Peg) :
    StateInv D (placeDisk sol s peg).2 := by
  rcases hd : s.selectedDisk with _ | d <;> rcases hp : s.selectedPeg with _ | pg <;>
    simp only [placeDisk, hd, hp]
  · exact h
  · exact h
  · exact h
  by_cases ha : s.isAutoSolving
  · simp only [ha, if_true, reduceIte]
    exact h
  · simp only [ha, Bool.false_eq_true, if_false, reduceIte]
    by_cases hpq : pg = peg
    · simp only [hpq, if_true, reduceIte]
      exact h.with_clear _ _ _ _ _
    · simp only [hpq, if_false, reduceIte]
      have hsrc : (s.pegs.get pg).getLast? = some d :=
        h.selOk d pg hd hp
      cases hl : (s.pegs.get peg).getLast? with
      | none =>
        exact stateInv_commit h sol hpq hsrc (fun t ht => by rw [hl] at ht; cases ht)
      | some t =>
        by_cases hgt : d > t
        · simp only [hgt, if_true, reduceIte]
          exact h.with_clear _ _ _ _ _
        · simp only [hgt, if_false, reduceIte]
          refine stateInv_commit h sol hpq hsrc ?_
          intro t' ht'
          rw [hl] at ht'
          cases ht'
          exact fit_strict h hpq hsrc hl (by omega)

theorem executeAutoSolveStep_guard (sol : SolutionResponse) (s : GameState)
    (ha : s.isAutoSolving = false) :
    executeAutoSolveStep (some sol) s = ⟨s, 0, false⟩ := by
  simp only [executeAutoSolveStep, ha, if_true, reduceIte]

theorem executeAutoSolveStep_notFound (sol : SolutionResponse) (s : GameState)
    (ha : s.isAutoSolving = true)
    (hf : sol.steps.find? (fun st => st.stepNumber == s.currentStep) = none) :
    executeAutoSolveStep (some sol) s =
      ⟨{ s with isAutoSolving := false }, 1, false⟩ := by
  simp only [executeAutoSolveStep, ha, Bool.true_eq_false, if_false, reduceIte, hf]

theorem executeAutoSolveStep_found (sol : SolutionResponse) (s : GameState)
    (step : Step) (ha : s.isAutoSolving = true)
    (hf : sol.steps.find? (fun st => st.stepNumber == s.currentStep) = some step) :
    (executeAutoSolveStep (some sol) s).state.pegs =
      (s.pegs.set step.fromPeg (s.pegs.get step.fromPeg).dropLast).set step.toPeg
        ((s.pegs.get step.toPeg) ++ [(s.pegs.get step.fromPeg).getLast?.getD 0]) ∧
    (executeAutoSolveStep (some sol) s).state.selectedDisk = none ∧
    (executeAutoSolveStep (some sol) s).state.selectedPeg = none ∧
    (executeAutoSolveStep (some sol) s).state.completedSteps =
      insert s.currentStep s.completedSteps ∧
    (executeAutoSolveStep (some sol) s).state.currentStep = s.currentStep + 1 ∧
    (s.currentStep + 1 > sol.steps.length →
      (executeAutoSolveStep (some sol) s).state.isAutoSolving = false ∧
      (executeAutoSolveStep (some sol) s).state.isSolved = true ∧
      (executeAutoSolveStep (some sol) s).onCompleteCalls = 1 ∧
      (executeAutoSolveStep (some sol) s).scheduledNext = false) ∧
    (¬ s.currentStep + 1 > sol.steps.length →
      (executeAutoSolveStep (some sol) s).state.isAutoSolving = s.isAutoSolving ∧
      (executeAutoSolveStep (some sol) s).state.isSolved = s.isSolved ∧
      (executeAutoSolveStep (some sol) s).onCompleteCalls = 0 ∧
      (executeAutoSolveStep (some sol) s).scheduledNext = true) := by
  simp only [executeAutoSolveStep, ha, Bool.true_eq_false, if_false, reduceIte, hf]
  by_cases hend : s.currentStep + 1 > sol.steps.length
  · rw [if_pos hend]
    exact ⟨rfl, rfl, rfl, rfl, rfl,
      fun _ => ⟨rfl, rfl, rfl, rfl⟩, fun hc => absurd hend hc⟩
  · rw [if_neg hend]
    exact ⟨rfl, rfl, rfl, rfl, rfl,
      fun hc => absurd hc hend, fun _ => ⟨rfl, rfl, rfl, rfl⟩⟩

theorem stateInv_autoStep {D : Multiset Nat} {s : GameState}
    (h : StateInv D s) (sol : SolutionResponse) (hl : LegalAutoStep sol s) :
    StateInv D (executeAutoSolveStep (some sol) s).state := by
  by_cases ha : s.isAutoSolving
  · cases hf : sol.steps.find? (fun st => st.stepNumber == s.currentStep) with
    | none =>
      rw [executeAutoSolveStep_notFound sol s ha hf]
      exact ⟨h.disks_eq, h.nodup, h.ord, fun d pg hd hp => h.selOk d pg hd hp⟩
    | some step =>
      obtain ⟨hab, hne_src, hfit⟩ := hl step hf
      obtain ⟨dl, hdl⟩ : ∃ dl, (s.pegs.get step.fromPeg).getLast? = some dl := by
        cases hcase : (s.pegs.get step.fromPeg).getLast? with
        | none => exact absurd (List.getLast?_eq_none_iff.mp hcase) hne_src
        | some x => exact ⟨x, rfl⟩
      obtain ⟨hpegs, hsd, hsp, -, -, -, -⟩ :=
        executeAutoSolveStep_found sol s step ha hf
      constructor
      · rw [hpegs, hdl]
        simp only [Option.getD_some]
        rw [Pegs.disks_move _ _ _ _ hab hdl, h.disks_eq]
      · exact h.nodup
      · intro pg'
        rw [hpegs, hdl]
        simp only [Option.getD_some]
        rw [Pegs.get_set]
        by_cases h1 : step.toPeg = pg'
        · rw [if_pos h1]
          subst h1
          exact ordered_append_top (h.ord step.toPeg) (fun t ht => hfit t ht dl hdl)
        · rw [if_neg h1, Pegs.get_set]
          by_cases h2 : step.fromPeg = pg'
          · rw [if_pos h2]
            subst h2
            exact ordered_dropLast (h.ord step.fromPeg)
          · rw [if_neg h2]
            exact h.ord pg'
      · intro d' pg' hd' hp'
        rw [hsd] at hd'
        cases hd'
  · rw [executeAutoSolveStep_guard sol s (by simpa using ha)]
    exact h

theorem stateInv_start {D : Multiset Nat} {s : GameState}
    (h : StateInv D s) (sol : SolutionResponse) :
    StateInv D (startAutoSolve sol s) := by
  simp only [startAutoSolve]
  split
  · exact ⟨h.disks_eq, h.nodup, h.ord, fun d pg hd hp => h.selOk d pg hd hp⟩
  · exact ⟨h.disks_eq, h.nodup, h.ord, fun d pg hd hp => h.selOk d pg hd hp⟩

theorem stateInv_stop {D : Multiset Nat} {s : GameState} (h : StateInv D s) :
    StateInv D (stopAutoSolve s) :=
  ⟨h.disks_eq, h.nodup, h.ord, fun d pg hd hp => h.selOk d pg hd hp⟩

theorem ordered_reset_A (N : Nat) :
    ordered ((List.range N).map (fun i => N - i)) := by
  rw [ordered, List.pairwise_map]
  refine (List.pairwise_lt_range N).imp_of_mem ?_
  intro a b ha hb hlt
  rw [List.mem_range] at ha hb
  omega

theorem reset_stateInv (N : Nat) : StateInv (reset N).pegs.disks (reset N) := by
  refine ⟨rfl, ?_, ?_, ?_⟩
  · show (reset N).pegs.disks.Nodup
    by_cases h : N ≤ 10 <;>
      simp only [reset, h, if_true, if_false, reduceIte, Pegs.disks] <;>
      simp only [Multiset.coe_nil, add_zero, Multiset.coe_nodup]
    · exact (ordered_reset_A N).imp (fun hab => by omega)
    · exact List.nodup_nil
  · intro pg
    by_cases h : N ≤ 10 <;>
      cases pg <;>
      simp only [reset, h, if_true, if_false, reduceIte, Pegs.get] <;>
      first
      | exact ordered_reset_A N
      | exact List.Pairwise.nil
  · intro d pg hd hp
    simp [reset] at hd

theorem reachable_stateInv {N : Nat} {s : GameState}
    (h : ReachableLegal N s) : StateInv (reset N).pegs.disks s := by
  induction h with
  | rst => exact reset_stateInv N
  | sel s peg _ ih => exact stateInv_selectDisk ih peg
  | place s sol peg _ ih => exact stateInv_placeDisk ih sol peg
  | start s sol _ ih => exact stateInv_start ih sol
  | stop s _ ih => exact stateInv_stop ih
  | auto s sol _ hl ih => exact stateInv_autoStep ih sol hl

theorem find_contiguous (l : List Step) :
    ∀ (base : Nat),
      (∀ i (h : i < l.length), (l.get ⟨i, h⟩).stepNumber = base + i + 1) →
      ∀ j (hj : j < l.length),
        l.find? (fun st => st.stepNumber == base + j + 1) = some (l.get ⟨j, hj⟩) := by
  induction l with
  | nil =>
    intro base hc j hj
    simp at hj
  | cons a l ih =>
    intro base hc j hj
    have ha : a.stepNumber = base + 1 := by
      have := hc 0 (by simp)
      simpa using this
    cases j with
    | zero =>
      rw [List.find?_cons_of_pos]
      · rfl
      · simp [ha]
    | succ j =>
      have hj' : j < l.length := by simpa using hj
      rw [List.find?_cons_of_neg]
      · have hc' : ∀ i (h : i < l.length),
            (l.get ⟨i, h⟩).stepNumber = (base + 1) + i + 1 := by
          intro i h
          have h2 := hc (i + 1) (by simp only [List.length_cons]; omega)
          have h3 : (l.get ⟨i, h⟩).stepNumber = base + (i + 1) + 1 := h2
          omega
        have hrec := ih (base + 1) hc' j hj'
        rw [show base + (j + 1) + 1 = (base + 1) + j + 1 from by omega]
        rw [hrec]
        rfl
      · simp only [ha, beq_iff_eq]
        omega

theorem find_contiguous_sol {sol : SolutionResponse} (hc : Contiguous sol)
    {k : Nat} (h1 : 1 ≤ k) (hk : k ≤ sol.steps.length) :
    ∃ (h : k - 1 < sol.steps.length),
      sol.steps.find? (fun st => st.stepNumber == k) =
        some (sol.steps.get ⟨k - 1, h⟩) := by
  have hc0 : ∀ i (h : i < sol.steps.length),
      (sol.steps.get ⟨i, h⟩).stepNumber = 0 + i + 1 := by
    intro i h
    rw [hc i h]
    omega
  have hj : k - 1 < sol.steps.length := by omega
  refine ⟨hj, ?_⟩
  have hres := find_contiguous sol.steps 0 hc0 (k - 1) hj
  rw [show 0 + (k - 1) + 1 = k from by omega] at hres
  exact hres

theorem runAutoSolve_completes (sol : SolutionResponse) (hc : Contiguous sol) :
    ∀ (fuel k : Nat) (s : GameState) (calls : Nat),
      s.isAutoSolving = true → s.currentStep = k → 1 ≤ k →
      k ≤ sol.steps.length → sol.steps.length - k < fuel →
      (runAutoSolve (some sol) fuel s calls).1.isAutoSolving = false ∧
      (runAutoSolve (some sol) fuel s calls).1.isSolved = true ∧
      (runAutoSolve (some sol) fuel s calls).1.currentStep = sol.steps.length + 1 ∧
      (runAutoSolve (some sol) fuel s calls).1.completedSteps =
        s.completedSteps ∪ Finset.Icc k sol.steps.length ∧
      (runAutoSolve (some sol) fuel s calls).2 = calls + 1 := by
  intro fuel
  induction fuel with
  | zero =>
    intro k s calls _ _ _ hlen hfuel
    omega
  | succ fuel ih =>
    intro k s calls ha hk h1 hlen hfuel
    obtain ⟨hj, hfind⟩ := find_contiguous_sol hc h1 hlen
    have hf : sol.steps.find? (fun st => st.stepNumber == s.currentStep) =
        some (sol.steps.get ⟨k - 1, hj⟩) := by
      rw [hk]
      exact hfind
    obtain ⟨hpegs, hsd, hsp, hcomp, hcur, hdone, hcont⟩ :=
      executeAutoSolveStep_found sol s (sol.steps.get ⟨k - 1, hj⟩) ha hf
    rw [hk] at hcomp
    simp only [runAutoSolve]
    by_cases hend : s.currentStep + 1 > sol.steps.length
    · obtain ⟨hia, his, hcalls, hsched⟩ := hdone hend
      rw [hsched]
      simp only [Bool.false_eq_true, if_false, reduceIte]
      have hkl : k = sol.steps.length := by omega
      refine ⟨hia, his, ?_, ?_, ?_⟩
      · rw [hcur, hk, hkl]
      · rw [hcomp, hkl, Finset.Icc_self, Finset.union_comm, ← Finset.insert_eq]
      · rw [hcalls]
    · obtain ⟨hia, his, hcalls, hsched⟩ := hcont hend
      rw [hsched]
      simp only [if_true, reduceIte]
      rw [ha] at hia
      have hrec := ih (k + 1) (executeAutoSolveStep (some sol) s).state
        (calls + (executeAutoSolveStep (some sol) s).onCompleteCalls)
        hia (by rw [hcur, hk]) (by omega) (by omega) (by omega)
      obtain ⟨r1, r2, r3, r4, r5⟩ := hrec
      refine ⟨r1, r2, r3, ?_, ?_⟩
      · rw [r4, hcomp]
        ext x
        simp only [Finset.mem_union, Finset.mem_insert, Finset.mem_Icc]
        constructor
        · rintro ((rfl | hx) | hx)
          · exact Or.inr ⟨le_refl _, by omega⟩
          · exact Or.inl hx
          · exact Or.inr ⟨by omega, hx.2⟩
        · rintro (hx | hx)
          · exact Or.inl (Or.inr hx)
          · rcases Nat.eq_or_lt_of_le hx.1 with rfl | hlt
            · exact Or.inl (Or.inl rfl)
            · exact Or.inr ⟨by omega, hx.2⟩
      · rw [r5, hcalls]

theorem selectDisk_selects (s : GameState) (peg : Peg)
    (ha : s.isAutoSolving = false) (hne : s.pegs.get peg ≠ [])
    (hsel : s.selectedPeg ≠ some peg) :
    selectDisk s peg =
      { s with selectedDisk := (s.pegs.get peg).getLast?,
               selectedPeg := some peg } := by
  simp only [selectDisk]
  rw [if_neg (by simp [ha]), if_neg hne, if_neg hsel]

theorem playMoves_run (sol : SolutionResponse) (hc : Contiguous sol) :
    ∀ (suffix : List Step) (k : Nat) (s : GameState),
      sol.steps.drop k = suffix → k ≤ sol.steps.length →
      s.currentStep = k + 1 → s.isAutoSolving = false →
      s.selectedDisk = none → s.selectedPeg = none →
      (s.isSolved = true ∨ k < sol.steps.length) →
      playable sol suffix s = true →
      (playMoves sol suffix s).currentStep = sol.steps.length + 1 ∧
      (playMoves sol suffix s).isSolved = true := by
  intro suffix
  induction suffix with
  | nil =>
    intro k s hdrop hk hcur ha hd hp hsolved _
    have hlen : sol.steps.length ≤ k := by
      by_contra hlt
      push_neg at hlt
      rw [List.drop_eq_getElem_cons hlt] at hdrop
      cases hdrop
    have hkl : k = sol.steps.length := by omega
    rcases hsolved with hs | hs
    · constructor
      · simp only [playMoves]
        omega
      · simp only [playMoves]
        exact hs
    · omega
  | cons st rest ih =>
    intro k s hdrop hk hcur ha hd hp _ hplay
    have hklt : k < sol.steps.length := by
      by_contra hge
      push_neg at hge
      rw [List.drop_eq_nil_of_le hge] at hdrop
      cases hdrop
    have hsplit : sol.steps.drop k =
        sol.steps.get ⟨k, hklt⟩ :: sol.steps.drop (k + 1) :=
      List.drop_eq_getElem_cons hklt
    rw [hsplit] at hdrop
    injection hdrop with h1 h2
    simp only [playable, Bool.and_eq_true, decide_eq_true_eq] at hplay
    obtain ⟨⟨hne, hsrc, hfit⟩, hplay2⟩ := hplay
    have hs1 : selectDisk s st.fromPeg =
        { s with selectedDisk := (s.pegs.get st.fromPeg).getLast?,
                 selectedPeg := some st.fromPeg } :=
      selectDisk_selects s st.fromPeg ha
        (fun hemp => by rw [hemp] at hsrc; cases hsrc)
        (by rw [hp]; simp)
    have hsuc : placeDisk (some sol)
        { s with selectedDisk := (s.pegs.get st.fromPeg).getLast?,
                 selectedPeg := some st.fromPeg } st.toPeg =
        (true, commitPlace (some sol)
          { s with selectedDisk := (s.pegs.get st.fromPeg).getLast?,
                   selectedPeg := some st.fromPeg } st.fromPeg st.disk st.toPeg) := by
      refine placeDisk_success _ _ st.disk _ _ ?_ rfl ha hne ?_
      · exact hsrc
      · exact hfit
    simp only [playMoves]
    rw [hs1, hsuc] at hplay2 ⊢
    set s1 : GameState :=
      { s with selectedDisk := (s.pegs.get st.fromPeg).getLast?,
               selectedPeg := some st.fromPeg } with hs1def
    obtain ⟨hpegs2, hsd2, hsp2, -, hia2⟩ :=
      commitPlace_base (some sol) s1 st.fromPeg st.disk st.toPeg
    have hcur1 : s1.currentStep = k + 1 := hcur
    obtain ⟨hj, hfind⟩ := find_contiguous_sol hc
      (k := k + 1) (by omega) (by omega)
    have hfind1 : sol.steps.find?
        (fun stp => stp.stepNumber == s1.currentStep) = some st := by
      rw [hcur1, hfind, ← h1]
      rfl
    obtain ⟨hcs2, hcur2, hsolved2⟩ :=
      commitPlace_progress_match sol s1 st.fromPeg st.disk st.toPeg st hfind1
        ⟨rfl, rfl, rfl⟩
    refine ih (k + 1)
      (commitPlace (some sol) s1 st.fromPeg st.disk st.toPeg) h2 (by omega)
      ?_ ?_ hsd2 hsp2 ?_ hplay2
    · rw [hcur2, hcur1]
    · rw [hia2]
      exact ha
    · by_cases hlast : k + 1 < sol.steps.length
      · exact Or.inr hlast
      · refine Or.inl ?_
        rw [hsolved2, hcur1, if_pos (by omega)]

/-- C1 (corrected to 1 ≤ N ≤ 10): `reset N` puts disks [N, N-1, ..., 1] on
peg A bottom-to-top, leaves B and C empty, clears the selection, sets
currentStep to 1, empties completedSteps, and clears the auto-solving and
solved flags.  (For N > 10 the source deliberately clears all pegs.) -/
theorem reset_board_initial (N : Nat) (h1 : 1 ≤ N) (h10 : N ≤ 10) :
    (reset N).pegs.A = (List.range' 1 N).reverse ∧
    (reset N).pegs.B = [] ∧
    (reset N).pegs.C = [] ∧
    (reset N).selectedDisk = none ∧
    (reset N).selectedPeg = none ∧
    (reset N).targetPeg = none ∧
    (reset N).currentStep = 1 ∧
    (reset N).completedSteps = ∅ ∧
    (reset N).isAutoSolving = false ∧
    (reset N).isSolved = false := by
  refine ⟨reset_pegs_A_eq N h10, ?_, ?_, rfl, rfl, rfl, rfl, rfl, rfl, rfl⟩ <;>
    (simp only [reset]; rw [if_pos h10])

/-- C1 counterexample: `reset 11` leaves peg A empty instead of holding
disks [11, ..., 1], because the source only fills the pegs for N ≤ 10. -/
theorem reset_eleven_pegs_empty :
    (reset 11).pegs.A ≠ (List.range' 1 11).reverse ∧ (reset 11).pegs.A = [] := by
  decide

/-- C1 witness at N = 3. -/
theorem reset_board_initial_witness :
    (reset 3).pegs.A = (List.range' 1 3).reverse ∧
    (reset 3).pegs.B = [] ∧
    (reset 3).pegs.C = [] ∧
    (reset 3).selectedDisk = none ∧
    (reset 3).selectedPeg = none ∧
    (reset 3).targetPeg = none ∧
    (reset 3).currentStep = 1 ∧
    (reset 3).completedSteps = ∅ ∧
    (reset 3).isAutoSolving = false ∧
    (reset 3).isSolved = false :=
  reset_board_initial 3 (by decide) (by decide)

/-- C2 (corrected): every state reachable through the hook's operations —
with each auto-solve step commit restricted to a legal move — conserves
the disk multiset of the reset board (exactly {1..N} whenever
1 ≤ N ≤ 10) and keeps every peg strictly size-decreasing bottom-to-top.
The restriction on auto-solve commits is forced: the Driver applies a
loaded solution step without any validation, so an illegal step breaks
the ordering invariant (see the counterexample). -/
theorem reachable_board_invariants (N : Nat) (s : GameState)
    (hr : ReachableLegal N s) :
    s.pegs.disks = (reset N).pegs.disks ∧
    (∀ pg, ordered (s.pegs.get pg)) ∧
    (1 ≤ N → N ≤ 10 → s.pegs.disks = ↑(List.range' 1 N)) := by
  have h := reachable_stateInv hr
  refine ⟨h.disks_eq, h.ord, fun _ h10 => ?_⟩
  rw [h.disks_eq]
  have hA := reset_pegs_A_eq N h10
  have hB : (reset N).pegs.B = [] := by
    simp only [reset]
    rw [if_pos h10]
  have hC : (reset N).pegs.C = [] := by
    simp only [reset]
    rw [if_pos h10]
  unfold Pegs.disks
  rw [hA, hB, hC]
  simp [Multiset.coe_reverse]

/-- C2 counterexample: auto-solving the malformed two-step solution
`badSol` from `reset 2` commits disk 2 on top of disk 1: peg C ends as
[1, 2], violating the strictly-decreasing invariant, even though the
moves were committed as successful auto-solve steps. -/
theorem autoSolve_commit_breaks_ordering :
    badRun.state.pegs.C = [1, 2] ∧
    ¬ ordered badRun.state.pegs.C ∧
    badRun.state.pegs.disks = ↑(List.range' 1 2) := by
  refine ⟨by decide, by decide, by decide⟩

/-- C2 witness: one legal manual move from `reset 2`. -/
theorem reachable_board_invariants_witness :
    (placeDisk none (selectDisk (reset 2) .A) .C).2.pegs.disks =
      (reset 2).pegs.disks ∧
    (∀ pg, ordered ((placeDisk none (selectDisk (reset 2) .A) .C).2.pegs.get pg)) ∧
    (1 ≤ 2 → 2 ≤ 10 →
      (placeDisk none (selectDisk (reset 2) .A) .C).2.pegs.disks =
        ↑(List.range' 1 2)) :=
  reachable_board_invariants 2 _
    (ReachableLegal.place _ none .C (ReachableLegal.sel _ .A ReachableLegal.rst))

/-- C3 (confirmed): when a move commits, the Step Tracker compares it with
the step found at the captured step number.  A match on from-peg, to-peg
and disk inserts the step number into completedSteps, increments
currentStep, and marks isSolved exactly when the new currentStep exceeds
the solution length (or it was already solved); any mismatch leaves the
progress unchanged while the disk still lands on the target peg.
Replaying a contiguous solution of length L from a fresh progress state
drives currentStep from 1 to L + 1 and sets isSolved. -/
theorem step_tracking_spec :
    (∀ (solution : SolutionResponse) (s : GameState) (d : Nat) (pg peg : Peg)
        (est : Step),
      s.selectedDisk = some d → s.selectedPeg = some pg →
      s.isAutoSolving = false → pg ≠ peg →
      (s.pegs.get peg).getLast?.all (fun t => d ≤ t) = true →
      solution.steps.find? (fun st => st.stepNumber == s.currentStep) = some est →
      (placeDisk (some solution) s peg).1 = true ∧
      (placeDisk (some solution) s peg).2.pegs.get peg = s.pegs.get peg ++ [d] ∧
      ((est.fromPeg = pg ∧ est.toPeg = peg ∧ est.disk = d) →
        (placeDisk (some solution) s peg).2.completedSteps =
          insert s.currentStep s.completedSteps ∧
        (placeDisk (some solution) s peg).2.currentStep = s.currentStep + 1 ∧
        ((placeDisk (some solution) s peg).2.isSolved = true ↔
          (s.currentStep + 1 > solution.steps.length ∨ s.isSolved = true))) ∧
      (¬ (est.fromPeg = pg ∧ est.toPeg = peg ∧ est.disk = d) →
        (placeDisk (some solution) s peg).2.completedSteps = s.completedSteps ∧
        (placeDisk (some solution) s peg).2.currentStep = s.currentStep ∧
        (placeDisk (some solution) s peg).2.isSolved = s.isSolved)) ∧
    (∀ (solution : SolutionResponse) (s : GameState),
      Contiguous solution → 1 ≤ solution.steps.length →
      s.currentStep = 1 → s.isAutoSolving = false → s.selectedDisk = none →
      s.selectedPeg = none → playable solution solution.steps s = true →
      (playMoves solution solution.steps s).currentStep =
        solution.steps.length + 1 ∧
      (playMoves solution solution.steps s).isSolved = true) := by
  constructor
  · intro solution s d pg peg est hd hp ha hne hfit hf
    rw [placeDisk_success (some solution) s d pg peg hd hp ha hne hfit]
    obtain ⟨hpegs, -, -, -, -⟩ := commitPlace_base (some solution) s pg d peg
    refine ⟨rfl, ?_, ?_, ?_⟩
    · show (commitPlace (some solution) s pg d peg).pegs.get peg = _
      rw [hpegs, Pegs.get_set, if_pos rfl]
    · intro hm
      obtain ⟨hcs, hcur, hsolved⟩ :=
        commitPlace_progress_match solution s pg d peg est hf hm
      refine ⟨hcs, hcur, ?_⟩
      show (commitPlace (some solution) s pg d peg).isSolved = true ↔ _
      rw [hsolved]
      by_cases hend : s.currentStep + 1 > solution.steps.length
      · simp [hend]
      · simp [hend]
    · intro hm
      exact commitPlace_progress_mismatch solution s pg d peg est hf hm
  · intro solution s hc hL h1 ha hd hp hplay
    exact playMoves_run solution hc solution.steps 0 s rfl (by omega) h1 ha hd hp
      (Or.inr (by omega)) hplay

/-- C3 witness: the matching first move of the two-disk solution, and the
full three-move replay of that solution. -/
theorem step_tracking_spec_witness :
    (placeDisk (some sol2) (selectDisk (reset 2) .A) .B).2.completedSteps =
      insert (selectDisk (reset 2) .A).currentStep
        (selectDisk (reset 2) .A).completedSteps ∧
    (playMoves sol2 sol2.steps (reset 2)).currentStep = sol2.steps.length + 1 ∧
    (playMoves sol2 sol2.steps (reset 2)).isSolved = true :=
  ⟨((step_tracking_spec.1 sol2 (selectDisk (reset 2) .A) 1 .A .B ⟨1, .A, .B, 1⟩
      (by decide) (by decide) (by decide) (by decide) (by decide)
      (by decide)).2.2.1 ⟨rfl, rfl, rfl⟩).1,
   (step_tracking_spec.2 sol2 (reset 2) (by decide) (by decide) rfl rfl rfl rfl
      (by decide)).1,
   (step_tracking_spec.2 sol2 (reset 2) (by decide) (by decide) rfl rfl rfl rfl
      (by decide)).2⟩

/-- C4 (code bug evidence): `stopAutoSolve` mid-flight drops the
auto-solving flag synchronously, but only the inter-step timeout handle is
stored in `autoSolveTimeoutRef`, so a pending phase-1/phase-2 timeout is
not cancelled: after the remaining scheduled callbacks fire, the board
differs from the snapshot taken immediately after stop (disk 1 has moved
from A to B), contradicting the claim that no further board mutation can
occur. -/
theorem stop_midflight_still_mutates :
    mStop.game.isAutoSolving = false ∧
    mStop.game.pegs = (reset 2).pegs ∧
    mStop.pending = some (.phase1 ⟨1, .A, .B, 1⟩ 1) ∧
    mEnd.pending = none ∧
    mEnd.game.pegs ≠ mStop.game.pegs ∧
    mEnd.game.pegs.B = [1] := by
  refine ⟨by decide, by decide, by decide, by decide, by decide, by decide⟩

/-- C5 (code bug evidence): on a desynchronized solution whose expected
disk (2) is not the actual top of the recorded source peg (1), the Driver
performs no check: it animates and commits the wrong disk, records the
step as completed, keeps driving, and surfaces no error. -/
theorem autoSolve_desync_not_detected :
    (s5.pegs.get .A).getLast? = some 1 ∧
    sol5.steps.find? (fun st => st.stepNumber == s5.currentStep) =
      some ⟨1, .A, .C, 2⟩ ∧
    out5.state.pegs ≠ s5.pegs ∧
    out5.state.pegs.C = [1] ∧
    out5.state.completedSteps = {1} ∧
    out5.scheduledNext = true ∧
    out5.state.isAutoSolving = true := by
  refine ⟨by decide, by decide, by decide, by decide, by decide, by decide,
    by decide⟩

/-- C6 (confirmed): with a disk selected and auto-solve off, placing on
the source peg itself, or on a peg whose top disk is smaller than the
selected disk, returns false, leaves the board (and all progress)
unchanged, and clears the selection; in particular the concrete N = 2
scenario: moving disk 2 onto the peg holding disk 1 fails that way. -/
theorem invalid_place_rejected (sol : Option SolutionResponse) (s : GameState)
    (d : Nat) (pg : Peg) (hd : s.selectedDisk = some d)
    (hp : s.selectedPeg = some pg) (ha : s.isAutoSolving = false) :
    (placeDisk sol s pg =
      (false, { s with selectedDisk := none, selectedPeg := none,
                       targetPeg := none })) ∧
    (∀ (peg : Peg) (t : Nat), (s.pegs.get peg).getLast? = some t → t < d →
      placeDisk sol s peg =
        (false, { s with selectedDisk := none, selectedPeg := none,
                         targetPeg := none })) ∧
    ((placeDisk none n2state .B).1 = false ∧
     (placeDisk none n2state .B).2.pegs = n2state.pegs ∧
     (placeDisk none n2state .B).2.selectedDisk = none ∧
     (placeDisk none n2state .B).2.selectedPeg = none) := by
  refine ⟨?_, ?_, by decide, by decide, by decide, by decide⟩
  · simp only [placeDisk, hd, hp]
    rw [if_neg (by simp [ha]), if_pos trivial]
  · intro peg t hl hlt
    by_cases hpq : pg = peg
    · subst hpq
      simp only [placeDisk, hd, hp]
      rw [if_neg (by simp [ha]), if_pos trivial]
    · simp only [placeDisk, hd, hp, hl]
      rw [if_neg (by simp [ha]), if_neg hpq, if_pos hlt]

/-- C6 witness: the N = 2 scenario through the general statement. -/
theorem invalid_place_rejected_witness :
    (placeDisk none n2state .A =
      (false, { n2state with selectedDisk := none, selectedPeg := none,
                             targetPeg := none })) ∧
    placeDisk none n2state .B =
      (false, { n2state with selectedDisk := none, selectedPeg := none,
                             targetPeg := none }) :=
  ⟨(invalid_place_rejected none n2state 2 .A (by decide) (by decide)
      (by decide)).1,
   (invalid_place_rejected none n2state 2 .A (by decide) (by decide)
      (by decide)).2.1 .B 1 (by decide) (by decide)⟩

/-- C7 (confirmed): auto-solve on a contiguous solution of length L ≥ 1,
started on a fresh progress state and run to completion without
interruption, ends with isAutoSolving false, completedSteps = {1..L},
isSolved true, and exactly one invocation of the completion callback. -/
theorem autoSolve_run_completes (solution : SolutionResponse) (s : GameState)
    (hc : Contiguous solution) (hL : 1 ≤ solution.steps.length)
    (h1 : s.currentStep = 1) (h2 : s.completedSteps = ∅) :
    (runAutoSolve (some solution) (solution.steps.length + 1)
        (startAutoSolve solution s) 0).1.isAutoSolving = false ∧
    (runAutoSolve (some solution) (solution.steps.length + 1)
        (startAutoSolve solution s) 0).1.completedSteps =
      Finset.Icc 1 solution.steps.length ∧
    (runAutoSolve (some solution) (solution.steps.length + 1)
        (startAutoSolve solution s) 0).1.isSolved = true ∧
    (runAutoSolve (some solution) (solution.steps.length + 1)
        (startAutoSolve solution s) 0).2 = 1 := by
  have hcond : ¬ ({ s with isAutoSolving := true } : GameState).currentStep >
      solution.steps.length := by
    show ¬ s.currentStep > solution.steps.length
    omega
  have hs : startAutoSolve solution s = { s with isAutoSolving := true } := by
    simp only [startAutoSolve]
    rw [if_neg hcond]
  obtain ⟨r1, r2, r3, r4, r5⟩ := runAutoSolve_completes solution hc
    (solution.steps.length + 1) 1 (startAutoSolve solution s) 0
    (by rw [hs]) (by rw [hs]; exact h1) (le_refl 1) hL (by omega)
  refine ⟨r1, ?_, r2, by rw [r5]⟩
  rw [r4, hs]
  show s.completedSteps ∪ _ = _
  rw [h2, Finset.empty_union]

/-- C7 witness: the two-disk solution from a fresh reset. -/
theorem autoSolve_run_completes_witness :
    (runAutoSolve (some sol2) (sol2.steps.length + 1)
        (startAutoSolve sol2 (reset 2)) 0).1.isAutoSolving = false ∧
    (runAutoSolve (some sol2) (sol2.steps.length + 1)
        (startAutoSolve sol2 (reset 2)) 0).1.completedSteps =
      Finset.Icc 1 sol2.steps.length ∧
    (runAutoSolve (some sol2) (sol2.steps.length + 1)
        (startAutoSolve sol2 (reset 2)) 0).1.isSolved = true ∧
    (runAutoSolve (some sol2) (sol2.steps.length + 1)
        (startAutoSolve sol2 (reset 2)) 0).2 = 1 :=
  autoSolve_run_completes sol2 (reset 2) (by decide) (by decide) rfl rfl

/-- C8 (confirmed): `startAutoSolve` raises isAutoSolving; when
currentStep is already past the end of the solution it resets currentStep
to 1 and clears completedSteps, otherwise it leaves both untouched so
driving resumes from the existing currentStep. -/
theorem startAutoSolve_spec (sol : SolutionResponse) (s : GameState) :
    (startAutoSolve sol s).isAutoSolving = true ∧
    (s.currentStep > sol.steps.length →
      (startAutoSolve sol s).currentStep = 1 ∧
      (startAutoSolve sol s).completedSteps = ∅) ∧
    (s.currentStep ≤ sol.steps.length →
      (startAutoSolve sol s).currentStep = s.currentStep ∧
      (startAutoSolve sol s).completedSteps = s.completedSteps) := by
  by_cases h : ({ s with isAutoSolving := true } : GameState).currentStep >
      sol.steps.length
  · have h' : s.currentStep > sol.steps.length := h
    have he : startAutoSolve sol s =
        { s with isAutoSolving := true, currentStep := 1,
                 completedSteps := ∅ } := by
      simp only [startAutoSolve]
      rw [if_pos h]
    rw [he]
    exact ⟨rfl, fun _ => ⟨rfl, rfl⟩, fun h2 => absurd h2 (by omega)⟩
  · have h' : ¬ s.currentStep > sol.steps.length := h
    have he : startAutoSolve sol s = { s with isAutoSolving := true } := by
      simp only [startAutoSolve]
      rw [if_neg h]
    rw [he]
    exact ⟨rfl, fun h2 => absurd h2 h', fun _ => ⟨rfl, rfl⟩⟩

/-- C8 witness: a completed run (currentStep 5 past a 3-step solution)
resets the progress, a fresh run resumes unchanged. -/
theorem startAutoSolve_spec_witness :
    (startAutoSolve sol2 { reset 2 with currentStep := 5 }).isAutoSolving = true ∧
    (startAutoSolve sol2 { reset 2 with currentStep := 5 }).currentStep = 1 ∧
    (startAutoSolve sol2 { reset 2 with currentStep := 5 }).completedSteps = ∅ ∧
    (startAutoSolve sol2 (reset 2)).currentStep = (reset 2).currentStep ∧
    (startAutoSolve sol2 (reset 2)).completedSteps = (reset 2).completedSteps :=
  ⟨(startAutoSolve_spec sol2 { reset 2 with currentStep := 5 }).1,
   ((startAutoSolve_spec sol2 { reset 2 with currentStep := 5 }).2.1
      (by decide)).1,
   ((startAutoSolve_spec sol2 { reset 2 with currentStep := 5 }).2.1
      (by decide)).2,
   ((startAutoSolve_spec sol2 (reset 2)).2.2 (by decide)).1,
   ((startAutoSolve_spec sol2 (reset 2)).2.2 (by decide)).2⟩

/-- C9 (confirmed): `placeDisk` while auto-solving, or with no selected
disk or no selected peg, returns false and leaves the entire state
unchanged. -/
theorem placeDisk_guard_noop (sol : Option SolutionResponse) (s : GameState)
    (peg : Peg)
    (h : s.isAutoSolving = true ∨ s.selectedDisk = none ∨
      s.selectedPeg = none) :
    placeDisk sol s peg = (false, s) := by
  rcases hd : s.selectedDisk with _ | d <;>
    rcases hp : s.selectedPeg with _ | pg <;>
    simp only [placeDisk, hd, hp]
  rcases h with h | h | h
  · rw [if_pos h]
  · rw [hd] at h
    cases h
  · rw [hp] at h
    cases h

/-- C9 witness: a fresh reset state has no selection. -/
theorem placeDisk_guard_noop_witness :
    placeDisk none (reset 3) .B = (false, reset 3) :=
  placeDisk_guard_noop none (reset 3) .B (Or.inr (Or.inl rfl))

/-- C10 counterexample: in a mid-auto-solve state (flag raised, driver
selection in place), `selectDisk` on the empty peg B is a guarded no-op:
the selection is not cleared, so the claim's "for every state" fails. -/
theorem selectDisk_autosolving_keeps_selection :
    m1.game.isAutoSolving = true ∧
    m1.game.pegs.get .B = [] ∧
    m1.game.selectedDisk = some 1 ∧
    (selectDisk m1.game .B).selectedDisk = some 1 ∧
    (selectDisk m1.game .B).selectedDisk ≠ none := by
  refine ⟨by decide, by decide, by decide, by decide, by decide⟩

/-- C10 (corrected to states where auto-solve is not running):
`selectDisk` on an empty peg or on the currently selected peg clears the
selection without touching the board; on a different occupied peg it
selects exactly that peg's top (last) disk. -/
theorem selectDisk_spec (s : GameState) (peg : Peg)
    (ha : s.isAutoSolving = false) :
    (s.pegs.get peg = [] →
      selectDisk s peg = { s with selectedDisk := none, selectedPeg := none }) ∧
    (s.selectedPeg = some peg →
      selectDisk s peg = { s with selectedDisk := none, selectedPeg := none }) ∧
    (s.pegs.get peg ≠ [] → s.selectedPeg ≠ some peg →
      selectDisk s peg =
        { s with selectedDisk := (s.pegs.get peg).getLast?,
                 selectedPeg := some peg }) := by
  refine ⟨?_, ?_, fun h1 h2 => selectDisk_selects s peg ha h1 h2⟩
  · intro hemp
    simp only [selectDisk]
    rw [if_neg (by simp [ha]), if_pos hemp]
  · intro hsel
    simp only [selectDisk]
    rw [if_neg (by simp [ha])]
    by_cases hemp : s.pegs.get peg = []
    · rw [if_pos hemp]
    · rw [if_neg hemp, if_pos hsel]

/-- C10 witness: empty-peg deselect and occupied-peg select on reset 3. -/
theorem selectDisk_spec_witness :
    selectDisk (reset 3) .B =
      { reset 3 with selectedDisk := none, selectedPeg := none } ∧
    selectDisk (reset 3) .A =
      { reset 3 with selectedDisk := ((reset 3).pegs.get .A).getLast?,
                     selectedPeg := some .A } :=
  ⟨(selectDisk_spec (reset 3) .B rfl).1 (by decide),
   (selectDisk_spec (reset 3) .A rfl).2.2 (by decide) (by decide)⟩
